import Mathlib

/-!
Verification of the `alb` adapter (Go): translation between the ALB/Lambda
event envelope and the standard `http.Handler` request/response interface.

Modelling conventions:
* Go strings and byte slices are modelled as `List Nat`, one `Nat` per byte
  (all meaningful bytes are `< 256`; theorems carry that bound where needed).
* Fallible Go functions returning `(T, error)` are modelled as `Option T`.
* Both revisions of the source are embedded: the conservative URL strategy
  (alb.go: unescape every query value, re-encode through `url.Values.Encode`)
  and the fast-path strategy (`buildURL`: concatenate pre-escaped pairs and
  parse once).
-/

namespace Alb

/-! ## Base64 (model of Go `encoding/base64` `StdEncoding`) -/

/-- The standard base64 alphabet as byte values
(`A`-`Z`, `a`-`z`, `0`-`9`, `+`, `/`). -/
def b64Alphabet : List Nat :=
  [65, 66, 67, 68, 69, 70, 71, 72, 73, 74, 75, 76, 77, 78, 79, 80,
   81, 82, 83, 84, 85, 86, 87, 88, 89, 90,
   97, 98, 99, 100, 101, 102, 103, 104, 105, 106, 107, 108, 109, 110,
   111, 112, 113, 114, 115, 116, 117, 118, 119, 120, 121, 122,
   48, 49, 50, 51, 52, 53, 54, 55, 56, 57, 43, 47]

/-- Byte of the base64 alphabet at a 6-bit index. -/
def b64Char (n : Nat) : Nat := b64Alphabet.getD n 0

/-- Index of a byte in the base64 alphabet; `none` for bytes outside it
(in particular for the padding byte `=` = 61). -/
def b64Index (c : Nat) : Option Nat := b64Alphabet.findIdx? (fun b => b = c)

/-- Model of `base64.StdEncoding.EncodeToString`: 3 input bytes become 4
alphabet bytes; a final 1- or 2-byte remainder is padded with `=` (61). -/
def b64Encode : List Nat → List Nat
  | [] => []
  | [a] => [b64Char (a / 4), b64Char (a % 4 * 16), 61, 61]
  | [a, b] => [b64Char (a / 4), b64Char (a % 4 * 16 + b / 16), b64Char (b % 16 * 4), 61]
  | a :: b :: c :: rest =>
      b64Char (a / 4) :: b64Char (a % 4 * 16 + b / 16) ::
      b64Char (b % 16 * 4 + c / 64) :: b64Char (c % 64) :: b64Encode rest

/-- The 4-byte-quantum loop of `base64.StdEncoding.DecodeString`, on input
whose ignored newline bytes have already been removed: the input must be
complete 4-byte quanta, `=` padding is allowed only at the last one or two
positions of the final quantum and nothing may follow it (Go: trailing
garbage), and any other byte outside the alphabet is an error
(`CorruptInputError`). -/
def b64DecodeQuanta : List Nat → Option (List Nat)
  | [] => some []
  | c0 :: c1 :: c2 :: c3 :: rest =>
    match b64Index c0, b64Index c1 with
    | some i0, some i1 =>
      if c2 = 61 then
        if c3 = 61 then
          match rest with
          | [] => some [i0 * 4 + i1 / 16]
          | _ => none
        else none
      else
        match b64Index c2 with
        | some i2 =>
          if c3 = 61 then
            match rest with
            | [] => some [i0 * 4 + i1 / 16, i1 % 16 * 16 + i2 / 4]
            | _ => none
          else
            match b64Index c3, b64DecodeQuanta rest with
            | some i3, some tail =>
                some ((i0 * 4 + i1 / 16) :: (i1 % 16 * 16 + i2 / 4) ::
                      (i2 % 4 * 64 + i3) :: tail)
            | _, _ => none
        | none => none
    | _, _ => none
  | _ => none

/-- Model of `base64.StdEncoding.DecodeString`: Go's decoder skips `\r`
(13) and `\n` (10) bytes wherever they occur — in the quantum loop and
around the padding — which is modelled by removing them up front; the
remaining bytes go through the strict quantum loop. -/
def b64Decode (s : List Nat) : Option (List Nat) :=
  b64DecodeQuanta (s.filter (fun b => !(b == 10 || b == 13)))

/-! ## UTF-8 validity (model of Go `unicode/utf8.Valid`) -/

/-- A UTF-8 continuation byte: `0x80`-`0xBF`. -/
def isCont (b : Nat) : Bool := 128 ≤ b && b ≤ 191

/-- Model of `utf8.Valid`: rejects overlong encodings, surrogates and
code points above `U+10FFFF`, exactly as Go's table-driven checker. -/
def utf8Valid : List Nat → Bool
  | [] => true
  | b0 :: rest =>
    if b0 ≤ 127 then utf8Valid rest
    else if b0 < 194 then false
    else if b0 ≤ 223 then
      match rest with
      | b1 :: r => isCont b1 && utf8Valid r
      | [] => false
    else if b0 ≤ 239 then
      match rest with
      | b1 :: b2 :: r =>
        (if b0 = 224 then 160 ≤ b1 && b1 ≤ 191
         else if b0 = 237 then 128 ≤ b1 && b1 ≤ 159
         else isCont b1) && (isCont b2 && utf8Valid r)
      | _ => false
    else if b0 ≤ 244 then
      match rest with
      | b1 :: b2 :: b3 :: r =>
        (if b0 = 240 then 144 ≤ b1 && b1 ≤ 191
         else if b0 = 244 then 128 ≤ b1 && b1 ≤ 143
         else isCont b1) && (isCont b2 && (isCont b3 && utf8Valid r))
      | _ => false
    else false

/-! ## Percent-escaping (model of Go `net/url` `unescape`/`escape`) -/

/-- The escaping modes of `net/url` used by this program. -/
inductive EncMode
  | path
  | queryComponent
  | fragment
deriving DecidableEq

/-- ASCII control byte as in Go `stringContainsCTLByte`: below space, or DEL. -/
def isCtlByte (b : Nat) : Bool := b < 32 || b = 127

/-- ASCII hex digit (`0-9`, `A-F`, `a-f`). -/
def isHexDigit (b : Nat) : Bool :=
  (48 ≤ b && b ≤ 57) || (65 ≤ b && b ≤ 70) || (97 ≤ b && b ≤ 102)

/-- Value of an ASCII hex digit byte. -/
def hexVal (b : Nat) : Nat := if b ≤ 57 then b - 48 else if b ≤ 70 then b - 55 else b - 87

/-- Upper-case hex digit byte for a value below 16 (Go `upperhex`). -/
def upperHexDigit (n : Nat) : Nat := if n < 10 then n + 48 else n + 55

/-- ASCII letter or digit. -/
def isAlphaNumByte (b : Nat) : Bool :=
  (48 ≤ b && b ≤ 57) || (65 ≤ b && b ≤ 90) || (97 ≤ b && b ≤ 122)

/-- An RFC 3986 unreserved byte: alphanumeric or `-_.~` (what
`shouldEscape` never escapes, in any mode). -/
def unreservedByte (b : Nat) : Bool :=
  isAlphaNumByte b || b = 45 || b = 95 || b = 46 || b = 126

/-- The byte a literal `+` decodes to: space in query components, itself
elsewhere (Go `unescape`, `case '+'`). -/
def plusByte : EncMode → Nat
  | EncMode.queryComponent => 32
  | _ => 43

/-- Model of Go `net/url.unescape` for the modes used here: `%XX` with two
hex digits decodes to the escaped byte and is an `EscapeError` otherwise;
`+` becomes space only in query components; all other bytes pass through. -/
def unescape (mode : EncMode) : List Nat → Option (List Nat)
  | [] => some []
  | c :: rest =>
    if c = 37 then
      match rest with
      | a :: b :: r =>
        if isHexDigit a && isHexDigit b then
          Option.map (fun t => (hexVal a * 16 + hexVal b) :: t) (unescape mode r)
        else none
      | _ => none
    else if c = 43 then Option.map (fun t => plusByte mode :: t) (unescape mode rest)
    else Option.map (fun t => c :: t) (unescape mode rest)

/-- Model of Go `net/url.shouldEscape` restricted to the three modes used
here: keep alphanumerics and `-_.~`; among the reserved bytes
`$&+,/:;=?@`, escape only `?` in paths, all of them in query components,
none in fragments; escape everything else. -/
def shouldEscape (mode : EncMode) (b : Nat) : Bool :=
  if isAlphaNumByte b then false
  else if b = 45 || b = 95 || b = 46 || b = 126 then false
  else if b = 36 || b = 38 || b = 43 || b = 44 || b = 47 || b = 58 || b = 59 ||
          b = 61 || b = 63 || b = 64 then
    match mode with
    | EncMode.path => b = 63
    | EncMode.queryComponent => true
    | EncMode.fragment => false
  else true

/-- One byte of Go `net/url.escape` output: space becomes `+` in query
components; other escaped bytes become `%` + two upper-case hex digits. -/
def escapeByte (mode : EncMode) (b : Nat) : List Nat :=
  if shouldEscape mode b then
    if b = 32 ∧ mode = EncMode.queryComponent then [43]
    else [37, upperHexDigit (b / 16), upperHexDigit (b % 16)]
  else [b]

/-- Model of Go `net/url.escape`. -/
def escape (mode : EncMode) (s : List Nat) : List Nat := (s.map (escapeByte mode)).flatten

/-! ## URL parsing (model of Go `net/url.Parse`) -/

/-- The fields of Go `url.URL` that this program reads or that
`Parse`/`setPath` write on scheme-less URLs. -/
structure GoURL where
  path : List Nat := []
  rawPath : List Nat := []
  forceQuery : Bool := false
  rawQuery : List Nat := []
  fragment : List Nat := []
  rawFragment : List Nat := []
deriving DecidableEq

/-- The separator-joining loop of `buildURL` and `url.Values.Encode` (the
Go code writes the separator before every element but the first). -/
def joinSep (sep : Nat) : List (List Nat) → List Nat
  | [] => []
  | [p] => p
  | p :: rest => p ++ sep :: joinSep sep rest

/-- Model of Go `strings.Cut` on a byte: `(before, after, found)` for the
first occurrence of `b`. -/
def cutByte (s : List Nat) (b : Nat) : List Nat × List Nat × Bool :=
  match s with
  | [] => ([], [], false)
  | c :: rest =>
    if c = b then ([], rest, true)
    else
      let r := cutByte rest b
      (c :: r.1, r.2.1, r.2.2)

/-- Model of `URL.setFragment`: unescape in fragment mode, keep the raw
form only when re-escaping would not reproduce it. -/
def setFragmentOn (u : GoURL) (f : List Nat) : Option GoURL :=
  match unescape EncMode.fragment f with
  | none => none
  | some frag =>
      some { u with fragment := frag,
                    rawFragment := if f = escape EncMode.fragment frag then [] else f }

/-- Model of the tail of Go `net/url.parse` after scheme handling, for a
scheme-less URL: the `ForceQuery` special case for a single trailing `?`,
cutting the raw query at the first `?`, the colon check on a first path
segment of a rootless path, and `setPath`.  URLs whose remainder begins
with exactly `//` (an authority) are outside the modelled domain and map
to `none`; the program's inputs are ALB request paths beginning with a
single `/`, and every theorem below stays inside this domain. -/
def parseRest (rest0 : List Nat) : Option GoURL :=
  let endsQ : Bool := rest0.getLast? = some 63
  let fq : Bool := endsQ && !(List.contains rest0.dropLast 63)
  let rest : List Nat := if fq then rest0.dropLast else (cutByte rest0 63).1
  let rq : List Nat := if fq then [] else (cutByte rest0 63).2.1
  if rest.head? ≠ some 47 ∧ (cutByte rest 47).1.contains 58 = true then none
  else if rest.take 2 = [47, 47] ∧ ¬ rest.take 3 = [47, 47, 47] then none
  else
    match unescape EncMode.path rest with
    | none => none
    | some p =>
        some { path := p, rawPath := if rest = escape EncMode.path p then [] else rest,
               forceQuery := fq, rawQuery := rq }

/-- Model of Go `net/url.parse` (with `viaRequest = false`) for URL strings
that do not begin with an ASCII letter (hence carry no scheme; ALB paths
begin with `/`): reject control bytes, special-case `*`, reject a leading
`:` (Go: missing protocol scheme).  Strings beginning with a letter could
carry a scheme and are outside the modelled domain (`none`). -/
def parseNoScheme (u0 : List Nat) : Option GoURL :=
  if u0.any isCtlByte then none
  else if u0 = [42] then some { path := [42] }
  else
    match u0.head? with
    | some h =>
        if (65 ≤ h ∧ h ≤ 90) ∨ (97 ≤ h ∧ h ≤ 122) then none
        else if h = 58 then none
        else parseRest u0
    | none => parseRest u0

/-- Model of Go `net/url.Parse`: split off the fragment at the first `#`,
parse the rest, then set the (unescaped) fragment if one was present. -/
def urlParse (s : List Nat) : Option GoURL :=
  let c := cutByte s 35
  match parseNoScheme c.1 with
  | none => none
  | some u => if c.2.1 = [] then some u else setFragmentOn u c.2.1

/-! ## The two URL-building strategies of the repository -/

/-- Model of `buildURL` (fast path): with no query parameters parse the
path alone; otherwise concatenate `path ? k1 = v1 & k2 = v2 ...` from the
already-escaped parts and parse the result once.  The query map is
modelled as an association list; Go's non-deterministic map iteration
order corresponds to quantifying over all list orders. -/
def buildURL (path : List Nat) (query : List (List Nat × List Nat)) : Option GoURL :=
  if query.isEmpty then urlParse path
  else urlParse (path ++ 63 :: joinSep 38 (query.map (fun kv => kv.1 ++ 61 :: kv.2)))

/-- Model of `url.Values.Set` on an association list: replace the value of
an existing key, otherwise add the key (Go map assignment). -/
def valsSet : List (List Nat × List Nat) → List Nat → List Nat → List (List Nat × List Nat)
  | [], k, v => [(k, v)]
  | kv :: rest, k, v => if kv.1 = k then (k, v) :: rest else kv :: valsSet rest k v

/-- The per-value `url.QueryUnescape` loop of the conservative strategy:
fails as soon as any query value has malformed escaping. -/
def decodeQueryVals : List (List Nat × List Nat) → Option (List (List Nat × List Nat))
  | [] => some []
  | kv :: rest =>
    match unescape EncMode.queryComponent kv.2, decodeQueryVals rest with
    | some d, some tail => some ((kv.1, d) :: tail)
    | _, _ => none

/-- Byte-lexicographic order on byte strings, as Go `sort.Strings` uses
when `url.Values.Encode` sorts the parameter keys. -/
def lexLe : List Nat → List Nat → Bool
  | [], _ => true
  | _ :: _, [] => false
  | x :: xs, y :: ys => if x < y then true else if y < x then false else lexLe xs ys

/-- Insert a pair into a key-sorted list of pairs. -/
def insertSorted (kv : List Nat × List Nat) :
    List (List Nat × List Nat) → List (List Nat × List Nat)
  | [] => [kv]
  | x :: xs => if lexLe kv.1 x.1 then kv :: x :: xs else x :: insertSorted kv xs

/-- Sort an association list by key in the ascending byte-lexicographic
order `url.Values.Encode` obtains from `sort.Strings` (the pairs always
carry distinct keys, coming from a Go map, so the sorted sequence is
unique). -/
def sortByKey : List (List Nat × List Nat) → List (List Nat × List Nat)
  | [] => []
  | x :: xs => insertSorted x (sortByKey xs)

/-- Model of `url.Values.Encode` on single-valued parameters: sort by key,
query-escape key and value, join `k=v` pairs with `&`. -/
def encodeValues (vals : List (List Nat × List Nat)) : List Nat :=
  joinSep 38
    ((sortByKey vals).map
      (fun kv => escape EncMode.queryComponent kv.1 ++ 61 :: escape EncMode.queryComponent kv.2))

/-- Model of the conservative URL construction of alb.go: the URL is built
directly with `Path` set to the raw event path (never parsed); with a
non-empty query map every value is query-unescaped (any failure aborts),
the pairs are entered into a `url.Values` via `Set`, and `RawQuery` is its
canonical `Encode`. -/
def conservativeURL (path : List Nat) (query : List (List Nat × List Nat)) : Option GoURL :=
  if query.isEmpty then some { path := path }
  else
    match decodeQueryVals query with
    | none => none
    | some decoded =>
        some { path := path,
               rawQuery := encodeValues (decoded.foldl (fun acc kv => valsSet acc kv.1 kv.2) []) }

/-! ## Envelope decoding, handler invocation and response encoding -/

/-- The inbound ALB event (`request` in the source): JSON fields
`httpMethod`, `path`, `queryStringParameters`, `headers`, `body`,
`isBase64Encoded`.  Maps are association lists; Go map iteration order is
modelled by quantifying over list orders. -/
structure InboundEvent where
  method : List Nat
  path : List Nat
  query : List (List Nat × List Nat)
  headers : List (List Nat × List Nat)
  body : List Nat
  bodyEncoded : Bool
deriving DecidableEq

/-- The parts of the `http.Request` the translation layer constructs and
hands to the wrapped handler (`StandardRequest` in the spec). -/
structure StandardRequest where
  method : List Nat
  url : GoURL
  headers : List (List Nat × List (List Nat))
  host : List Nat
  body : List Nat
  contentLength : Nat
deriving DecidableEq

/-- What `httptest.NewRecorder` captured once the handler returned:
status code, status line, header multimap, body byte buffer. -/
structure CapturedResponse where
  statusCode : Nat
  status : List Nat
  headers : List (List Nat × List (List Nat))
  body : List Nat
deriving DecidableEq

/-- The outbound envelope (`response` in the source): JSON fields
`statusCode`, `statusDescription`, `headers`, `body`, `isBase64Encoded`. -/
structure OutboundEnvelope where
  statusCode : Nat
  status : List Nat
  headers : List (List Nat × List Nat)
  body : List Nat
  bodyEncoded : Bool
deriving DecidableEq

/-- RFC 7230 token byte, as in Go `textproto` `validHeaderFieldByte`. -/
def isTokenByte (b : Nat) : Bool :=
  isAlphaNumByte b || b = 33 || b = 35 || b = 36 || b = 37 || b = 38 || b = 39 ||
  b = 42 || b = 43 || b = 45 || b = 46 || b = 94 || b = 95 || b = 96 || b = 124 || b = 126

/-- Upper-case an ASCII letter byte. -/
def toUpperByte (b : Nat) : Nat := if 97 ≤ b ∧ b ≤ 122 then b - 32 else b

/-- Lower-case an ASCII letter byte. -/
def toLowerByte (b : Nat) : Nat := if 65 ≤ b ∧ b ≤ 90 then b + 32 else b

/-- The case-folding loop of `textproto.CanonicalMIMEHeaderKey`: upper-case
the first byte and each byte following a `-`, lower-case the rest. -/
def canonLoop : Bool → List Nat → List Nat
  | _, [] => []
  | up, b :: rest => (if up then toUpperByte b else toLowerByte b) :: canonLoop (b = 45) rest

/-- Model of `textproto.CanonicalMIMEHeaderKey`: canonicalize the case only
when every byte is a valid header token byte, else return the key unchanged. -/
def canonicalKey (k : List Nat) : List Nat :=
  if k.all isTokenByte then canonLoop true k else k

/-- Model of `http.Header.Set` on an association-list multimap: replace the
values of the canonicalized key by the one new value (last write wins). -/
def headerSet : List (List Nat × List (List Nat)) → List Nat → List Nat →
    List (List Nat × List (List Nat))
  | [], k, v => [(canonicalKey k, [v])]
  | kv :: rest, k, v =>
      if kv.1 = canonicalKey k then (kv.1, [v]) :: rest else kv :: headerSet rest k v

/-- Model of `http.Header.Get`: first value stored under the canonicalized
key, or the empty string. -/
def headerGet (hs : List (List Nat × List (List Nat))) (k : List Nat) : List Nat :=
  match hs.find? (fun kv => kv.1 = canonicalKey k) with
  | some kv => kv.2.headD []
  | none => []

/-- The bytes of the header name `Host`. -/
def hostKey : List Nat := [72, 111, 115, 116]

/-- The request-building phase of `lambdaHandler.Run`, parametrized by the
URL strategy (the only difference between the two revisions of the
source): build the URL (abort on failure), `Set` each event header, then
decode the body — base64-decoded when `isBase64Encoded` is set (abort on
failure), the raw string bytes otherwise — with `ContentLength` the exact
byte count. -/
def buildRequestWith (mkURL : List Nat → List (List Nat × List Nat) → Option GoURL)
    (ev : InboundEvent) : Option StandardRequest :=
  match mkURL ev.path ev.query with
  | none => none
  | some u =>
    let hs := ev.headers.foldl (fun acc kv => headerSet acc kv.1 kv.2) []
    match (if ev.bodyEncoded then b64Decode ev.body else some ev.body) with
    | none => none
    | some b =>
        some { method := ev.method, url := u, headers := hs, host := headerGet hs hostKey,
               body := b, contentLength := b.length }

/-- The response-encoding phase of `lambdaHandler.Run`: copy status code
and status line, join each header's values with a comma, and emit the body
raw when it is valid UTF-8, base64-encoded with `isBase64Encoded` set
otherwise. -/
def encodeResponse (res : CapturedResponse) : OutboundEnvelope :=
  { statusCode := res.statusCode, status := res.status,
    headers := res.headers.map (fun kv => (kv.1, List.intercalate [44] kv.2)),
    body := if utf8Valid res.body then res.body else b64Encode res.body,
    bodyEncoded := ! utf8Valid res.body }

/-- Reading an outbound envelope's body back: base64-decode it when
`isBase64Encoded` is set, take the raw string bytes otherwise. -/
def decodeEnvelopeBody (env : OutboundEnvelope) : Option (List Nat) :=
  if env.bodyEncoded then b64Decode env.body else some env.body

/-- `lambdaHandler.Run` of the fast-path revision (src/unnamed/part_000):
build the request via `buildURL`, invoke the handler synchronously, encode
the captured response.  The wrapped `http.Handler` is modelled as a pure
function from the constructed request to the captured response. -/
def lambdaRun (h : StandardRequest → CapturedResponse) (ev : InboundEvent) :
    Option OutboundEnvelope :=
  (buildRequestWith buildURL ev).map (fun r => encodeResponse (h r))

/-- `lambdaHandler.Run` of the conservative revision (src/alb.go): same
pipeline with the unescape-and-re-encode URL construction. -/
def lambdaRunConservative (h : StandardRequest → CapturedResponse) (ev : InboundEvent) :
    Option OutboundEnvelope :=
  (buildRequestWith conservativeURL ev).map (fun r => encodeResponse (h r))

/-- The bytes of the panic message `Wrap called with nil handler`. -/
def panicMessage : List Nat :=
  [87, 114, 97, 112, 32, 99, 97, 108, 108, 101, 100, 32, 119, 105, 116, 104,
   32, 110, 105, 108, 32, 104, 97, 110, 100, 108, 101, 114]

/-- Model of the public constructor `Handler`: a nil handler (modelled as
`none`) panics (modelled as `Except.error` with the panic message); a
non-nil handler yields the translation function `lambdaRun h` — the
wrapped handler itself is applied only inside `lambdaRun`, at translation
time, never during construction. -/
def Handler (h : Option (StandardRequest → CapturedResponse)) :
    Except (List Nat) (InboundEvent → Option OutboundEnvelope) :=
  match h with
  | none => Except.error panicMessage
  | some hf => Except.ok (lambdaRun hf)

/-! ## Observations used to state the claims -/

/-- Model of `strings.Split` on a single byte. -/
def splitOnByte (b : Nat) : List Nat → List (List Nat)
  | [] => [[]]
  | c :: rest =>
    let r := splitOnByte b rest
    if c = b then [] :: r
    else
      match r with
      | h :: t => (c :: h) :: t
      | [] => [[c]]

/-- Cut a `key=value` component at its first `=`, as `url.ParseQuery` does;
with no `=` the value is empty. -/
def cutEq (p : List Nat) : List Nat × List Nat :=
  let c := cutByte p 61
  (c.1, c.2.1)

/-- The raw `name=value` pairs of a raw query string: components split at
`&`, empty components dropped, each cut at its first `=` — the component
structure `url.ParseQuery` sees, without unescaping. -/
def queryPairs (rq : List Nat) : List (List Nat × List Nat) :=
  ((splitOnByte 38 rq).filter (fun p => ¬ p.isEmpty)).map cutEq

/-- The decoded `name=value` pairs of a raw query string: each raw pair
with name and value query-unescaped, `none` if any part is malformed. -/
def decodePairs : List (List Nat × List Nat) → Option (List (List Nat × List Nat))
  | [] => some []
  | kv :: rest =>
    match unescape EncMode.queryComponent kv.1, unescape EncMode.queryComponent kv.2,
          decodePairs rest with
    | some k, some v, some tail => some ((k, v) :: tail)
    | _, _, _ => none

/-- The decoded query pairs of a raw query string. -/
def decodedQueryPairs (rq : List Nat) : Option (List (List Nat × List Nat)) :=
  decodePairs (queryPairs rq)

/-- A correctly percent-escaped query component: a sequence of unreserved
bytes (alphanumeric or `-_.~`), `+`, and complete `%XX` escapes. -/
def validEscapedValue : List Nat → Bool
  | [] => true
  | c :: rest =>
    if c = 37 then
      match rest with
      | a :: b :: r => isHexDigit a && isHexDigit b && validEscapedValue r
      | _ => false
    else (unreservedByte c || c = 43) && validEscapedValue rest

/-! ### Base64 round-trip -/

theorem b64Index_b64Char : ∀ n, n < 64 → b64Index (b64Char n) = some n := by decide

theorem b64Char_ne_pad : ∀ n, n < 64 → (b64Char n = 61) = False := by decide

theorem b64DecodeQuanta_roundtrip : ∀ l : List Nat, (∀ x ∈ l, x < 256) →
    b64DecodeQuanta (b64Encode l) = some l := by
  intro l
  induction l using b64Encode.induct with
  | case1 =>
    intro _
    rfl
  | case2 a =>
    intro h
    have ha : a < 256 := h a (by simp)
    have h1 : a / 4 < 64 := by omega
    have h2 : a % 4 * 16 < 64 := by omega
    simp [b64Encode, b64DecodeQuanta, b64Index_b64Char _ h1, b64Index_b64Char _ h2]
    omega
  | case3 a b =>
    intro h
    have ha : a < 256 := h a (by simp)
    have hb : b < 256 := h b (by simp)
    have h1 : a / 4 < 64 := by omega
    have h2 : a % 4 * 16 + b / 16 < 64 := by omega
    have h3 : b % 16 * 4 < 64 := by omega
    simp [b64Encode, b64DecodeQuanta, b64Index_b64Char _ h1, b64Index_b64Char _ h2,
      b64Index_b64Char _ h3, b64Char_ne_pad _ h3]
    omega
  | case4 a b c rest ih =>
    intro h
    have ha : a < 256 := h a (by simp)
    have hb : b < 256 := h b (by simp)
    have hc : c < 256 := h c (by simp)
    have h1 : a / 4 < 64 := by omega
    have h2 : a % 4 * 16 + b / 16 < 64 := by omega
    have h3 : b % 16 * 4 + c / 64 < 64 := by omega
    have h4 : c % 64 < 64 := by omega
    have hrest : b64DecodeQuanta (b64Encode rest) = some rest := by
      refine ih ?_
      intro x hx
      exact h x (by simp [hx])
    simp [b64Encode, b64DecodeQuanta, b64Index_b64Char _ h1, b64Index_b64Char _ h2,
      b64Index_b64Char _ h3, b64Index_b64Char _ h4, b64Char_ne_pad _ h3,
      b64Char_ne_pad _ h4, hrest]
    omega

/-! ## Helper lemmas about the request-building phase -/

theorem buildRequestWith_plain_body (mk : List Nat → List (List Nat × List Nat) → Option GoURL)
    (ev : InboundEvent) (h : ev.bodyEncoded = false) (r : StandardRequest)
    (hr : buildRequestWith mk ev = some r) :
    r.body = ev.body ∧ r.contentLength = ev.body.length := by
  unfold buildRequestWith at hr
  cases hu : mk ev.path ev.query with
  | none => rw [hu] at hr; cases hr
  | some u =>
    rw [hu, h] at hr
    simp only [Bool.false_eq_true, if_false] at hr
    cases hr
    exact ⟨rfl, rfl⟩

theorem buildRequestWith_encoded_body (mk : List Nat → List (List Nat × List Nat) → Option GoURL)
    (ev : InboundEvent) (h : ev.bodyEncoded = true) (d : List Nat)
    (hd : b64Decode ev.body = some d) (r : StandardRequest)
    (hr : buildRequestWith mk ev = some r) :
    r.body = d ∧ r.contentLength = d.length := by
  unfold buildRequestWith at hr
  cases hu : mk ev.path ev.query with
  | none => rw [hu] at hr; cases hr
  | some u =>
    rw [hu, h] at hr
    simp only [if_true] at hr
    rw [hd] at hr
    cases hr
    exact ⟨rfl, rfl⟩

theorem buildRequestWith_encoded_fail (mk : List Nat → List (List Nat × List Nat) → Option GoURL)
    (ev : InboundEvent) (h : ev.bodyEncoded = true) (hd : b64Decode ev.body = none) :
    buildRequestWith mk ev = none := by
  unfold buildRequestWith
  cases hu : mk ev.path ev.query with
  | none => rfl
  | some u =>
    rw [h]
    simp only [if_true]
    rw [hd]

theorem b64Char_ne_newline : ∀ n, n < 64 → ¬ b64Char n = 10 ∧ ¬ b64Char n = 13 := by decide

/-- Base64 output never contains the newline bytes the decoder skips. -/
theorem b64Encode_no_newline (l : List Nat) (h : ∀ x ∈ l, x < 256) :
    ∀ x ∈ b64Encode l, ¬ x = 10 ∧ ¬ x = 13 := by
  induction l using b64Encode.induct with
  | case1 =>
    intro x hx
    cases hx
  | case2 a =>
    intro x hx
    have ha : a < 256 := h a (by simp)
    simp only [b64Encode, List.mem_cons, List.not_mem_nil, or_false] at hx
    rcases hx with h1 | h1 | h1 | h1 <;> subst h1
    · exact b64Char_ne_newline _ (by omega)
    · exact b64Char_ne_newline _ (by omega)
    · exact ⟨by omega, by omega⟩
    · exact ⟨by omega, by omega⟩
  | case3 a b =>
    intro x hx
    have ha : a < 256 := h a (by simp)
    have hb : b < 256 := h b (by simp)
    simp only [b64Encode, List.mem_cons, List.not_mem_nil, or_false] at hx
    rcases hx with h1 | h1 | h1 | h1 <;> subst h1
    · exact b64Char_ne_newline _ (by omega)
    · exact b64Char_ne_newline _ (by omega)
    · exact b64Char_ne_newline _ (by omega)
    · exact ⟨by omega, by omega⟩
  | case4 a b cc rest ih =>
    intro x hx
    have ha : a < 256 := h a (by simp)
    have hb : b < 256 := h b (by simp)
    have hc : cc < 256 := h cc (by simp)
    simp only [b64Encode, List.mem_cons] at hx
    rcases hx with h1 | h1 | h1 | h1 | h1
    · subst h1
      exact b64Char_ne_newline _ (by omega)
    · subst h1
      exact b64Char_ne_newline _ (by omega)
    · subst h1
      exact b64Char_ne_newline _ (by omega)
    · subst h1
      exact b64Char_ne_newline _ (by omega)
    · exact ih (fun y hy => h y (by simp [hy])) x h1

theorem b64_roundtrip : ∀ l : List Nat, (∀ x ∈ l, x < 256) →
    b64Decode (b64Encode l) = some l := by
  intro l h
  unfold b64Decode
  have hfil : (b64Encode l).filter (fun b => !(b == 10 || b == 13)) = b64Encode l := by
    rw [List.filter_eq_self]
    intro x hx
    obtain ⟨h10, h13⟩ := b64Encode_no_newline l h x hx
    simp [h10, h13]
  rw [hfil]
  exact b64DecodeQuanta_roundtrip l h

/-! ## List and splitting helper lemmas -/

theorem cutByte_not_found (s : List Nat) (b : Nat) (h : ∀ x ∈ s, ¬ x = b) :
    cutByte s b = (s, [], false) := by
  induction s with
  | nil => rfl
  | cons c rest ih =>
    have hc : ¬ c = b := h c (by simp)
    have hr := ih (fun x hx => h x (by simp [hx]))
    simp [cutByte, hc, hr]

theorem cutByte_found (xs ys : List Nat) (b : Nat) (h : ∀ x ∈ xs, ¬ x = b) :
    cutByte (xs ++ b :: ys) b = (xs, ys, true) := by
  induction xs with
  | nil => simp [cutByte]
  | cons c rest ih =>
    have hc : ¬ c = b := h c (by simp)
    have hr := ih (fun x hx => h x (by simp [hx]))
    simp [cutByte, hc, hr]

theorem mem_joinSep (sep : Nat) (parts : List (List Nat)) (x : Nat)
    (hx : x ∈ joinSep sep parts) : x = sep ∨ ∃ p ∈ parts, x ∈ p := by
  induction parts with
  | nil => simp [joinSep] at hx
  | cons p rest ih =>
    cases rest with
    | nil =>
      rw [joinSep] at hx
      exact Or.inr ⟨p, by simp, hx⟩
    | cons q t =>
      have hj : joinSep sep (p :: q :: t) = p ++ sep :: joinSep sep (q :: t) := rfl
      rw [hj] at hx
      rcases List.mem_append.1 hx with h1 | h2
      · exact Or.inr ⟨p, by simp, h1⟩
      · rcases List.mem_cons.1 h2 with h3 | h4
        · exact Or.inl h3
        · rcases ih h4 with h5 | ⟨r, hr, hxr⟩
          · exact Or.inl h5
          · exact Or.inr ⟨r, by simp [hr], hxr⟩

theorem splitOnByte_no_sep (sep : Nat) (p : List Nat) (hp : ∀ x ∈ p, ¬ x = sep) :
    splitOnByte sep p = [p] := by
  induction p with
  | nil => rfl
  | cons c cs ih =>
    have hc : ¬ c = sep := hp c (by simp)
    have hr := ih (fun x hx => hp x (by simp [hx]))
    simp [splitOnByte, hc, hr]

theorem splitOnByte_append_sep (sep : Nat) (p r : List Nat) (hp : ∀ x ∈ p, ¬ x = sep) :
    splitOnByte sep (p ++ sep :: r) = p :: splitOnByte sep r := by
  induction p with
  | nil => simp [splitOnByte]
  | cons c cs ih =>
    have hc : ¬ c = sep := hp c (by simp)
    have hr := ih (fun x hx => hp x (by simp [hx]))
    simp [splitOnByte, hc, hr]

theorem splitOnByte_joinSep (sep : Nat) (parts : List (List Nat)) (hne : ¬ parts = [])
    (h : ∀ p ∈ parts, ∀ x ∈ p, ¬ x = sep) :
    splitOnByte sep (joinSep sep parts) = parts := by
  induction parts with
  | nil => exact absurd rfl hne
  | cons p rest ih =>
    cases rest with
    | nil =>
      rw [joinSep]
      exact splitOnByte_no_sep sep p (h p (by simp))
    | cons q t =>
      have hj : joinSep sep (p :: q :: t) = p ++ sep :: joinSep sep (q :: t) := rfl
      rw [hj, splitOnByte_append_sep sep p _ (h p (by simp))]
      rw [ih (by simp) (fun r hr x hx => h r (by simp [hr]) x hx)]

theorem cutEq_append (k v : List Nat) (hk : ∀ x ∈ k, ¬ x = 61) :
    cutEq (k ++ 61 :: v) = (k, v) := by
  unfold cutEq
  rw [cutByte_found k v 61 hk]

/-- `valsSet` appends a fresh key at the end. -/
theorem valsSet_append (acc : List (List Nat × List Nat)) (k v : List Nat)
    (h : ∀ a ∈ acc, ¬ a.1 = k) : valsSet acc k v = acc ++ [(k, v)] := by
  induction acc with
  | nil => rfl
  | cons a rest ih =>
    have ha : ¬ a.1 = k := h a (by simp)
    have hr := ih (fun x hx => h x (by simp [hx]))
    simp [valsSet, ha, hr]

/-- Folding `valsSet` over pairs with fresh, pairwise-distinct keys just
appends them in order. -/
theorem foldl_valsSet (l : List (List Nat × List Nat)) (acc : List (List Nat × List Nat))
    (hdisj : ∀ kv ∈ l, ∀ a ∈ acc, ¬ a.1 = kv.1) (hnd : (l.map Prod.fst).Nodup) :
    l.foldl (fun acc kv => valsSet acc kv.1 kv.2) acc = acc ++ l := by
  induction l generalizing acc with
  | nil => simp
  | cons kv rest ih =>
    have h1 : ∀ a ∈ acc, ¬ a.1 = kv.1 := fun a ha => hdisj kv (by simp) a ha
    have hnd' : (rest.map Prod.fst).Nodup := (List.nodup_cons.1 hnd).2
    have hkvfresh : ∀ x ∈ rest, ¬ x.1 = kv.1 := by
      intro x hx heq
      exact (List.nodup_cons.1 hnd).1 (heq ▸ List.mem_map_of_mem Prod.fst hx)
    rw [List.foldl_cons, valsSet_append acc kv.1 kv.2 h1]
    have hdisj' : ∀ x ∈ rest, ∀ a ∈ acc ++ [(kv.1, kv.2)], ¬ a.1 = x.1 := by
      intro x hx a ha
      rcases List.mem_append.1 ha with h2 | h3
      · exact hdisj x (by simp [hx]) a h2
      · have : a = (kv.1, kv.2) := by simpa using h3
        subst this
        intro heq
        exact hkvfresh x hx heq.symm
    rw [ih (acc ++ [(kv.1, kv.2)]) hdisj' hnd']
    simp

theorem insertSorted_perm (kv : List Nat × List Nat) (l : List (List Nat × List Nat)) :
    (insertSorted kv l).Perm (kv :: l) := by
  induction l with
  | nil => exact List.Perm.refl _
  | cons x xs ih =>
    by_cases h : lexLe kv.1 x.1
    · simp [insertSorted, h]
    · simp only [insertSorted, h, if_false]
      exact (ih.cons x).trans (List.Perm.swap kv x xs)

theorem sortByKey_perm (l : List (List Nat × List Nat)) : (sortByKey l).Perm l := by
  induction l with
  | nil => exact List.Perm.refl _
  | cons x xs ih => exact (insertSorted_perm x (sortByKey xs)).trans (ih.cons x)

/-! ## Equation lemmas for the byte-wise escape functions

The compiler splits the equations of `unescape` and `validEscapedValue`
by the shape of the tail; these lemmas restore the one-step equations. -/

theorem unescape_cons (mode : EncMode) (c : Nat) (rest : List Nat) :
    unescape mode (c :: rest) =
      (if c = 37 then
        match rest with
        | a :: b :: r =>
          if isHexDigit a && isHexDigit b then
            Option.map (fun t => (hexVal a * 16 + hexVal b) :: t) (unescape mode r)
          else none
        | _ => none
      else if c = 43 then Option.map (fun t => plusByte mode :: t) (unescape mode rest)
      else Option.map (fun t => c :: t) (unescape mode rest)) := by
  cases rest with
  | nil => rfl
  | cons a tail =>
    cases tail with
    | nil => rfl
    | cons b r => rfl

theorem unescape_cons_other (mode : EncMode) (c : Nat) (rest : List Nat)
    (h37 : ¬ c = 37) (h43 : ¬ c = 43) :
    unescape mode (c :: rest) = Option.map (fun t => c :: t) (unescape mode rest) := by
  rw [unescape_cons, if_neg h37, if_neg h43]

theorem unescape_cons_plus (mode : EncMode) (rest : List Nat) :
    unescape mode (43 :: rest) = Option.map (fun t => plusByte mode :: t) (unescape mode rest) := by
  rw [unescape_cons]
  norm_num

theorem unescape_percent (mode : EncMode) (a b : Nat) (r : List Nat)
    (hab : (isHexDigit a && isHexDigit b) = true) :
    unescape mode (37 :: a :: b :: r) =
      Option.map (fun t => (hexVal a * 16 + hexVal b) :: t) (unescape mode r) := by
  rw [unescape_cons, if_pos rfl]
  simp only [hab, if_true]

theorem validEscapedValue_cons_other (c : Nat) (rest : List Nat) (h : ¬ c = 37) :
    validEscapedValue (c :: rest) = ((unreservedByte c || c = 43) && validEscapedValue rest) := by
  have he : validEscapedValue (c :: rest) =
      (if c = 37 then
        match rest with
        | a :: b :: r => isHexDigit a && isHexDigit b && validEscapedValue r
        | _ => false
      else (unreservedByte c || c = 43) && validEscapedValue rest) := by
    cases rest with
    | nil => rfl
    | cons a tail =>
      cases tail with
      | nil => rfl
      | cons b r => rfl
  rw [he, if_neg h]

theorem validEscapedValue_percent (a b : Nat) (r : List Nat) :
    validEscapedValue (37 :: a :: b :: r) =
      (isHexDigit a && isHexDigit b && validEscapedValue r) := rfl

/-! ## Escaping lemmas -/

theorem unreservedByte_facts (b : Nat) (h : unreservedByte b = true) :
    ¬ b = 37 ∧ ¬ b = 43 ∧ ¬ b = 38 ∧ ¬ b = 61 ∧ ¬ b = 35 ∧ ¬ b = 63 ∧
    isCtlByte b = false ∧ b < 127 := by
  simp only [unreservedByte, isAlphaNumByte, isCtlByte, Bool.or_eq_true, Bool.and_eq_true,
    decide_eq_true_eq, Bool.or_eq_false_iff, decide_eq_false_iff_not] at h ⊢
  omega

theorem unescape_path_id (p : List Nat) (h : ∀ x ∈ p, ¬ x = 37) :
    unescape EncMode.path p = some p := by
  induction p with
  | nil => rfl
  | cons c cs ih =>
    have hc : ¬ c = 37 := h c (by simp)
    have hr := ih (fun x hx => h x (by simp [hx]))
    by_cases h43 : c = 43
    · subst h43
      rw [unescape_cons_plus, hr]
      rfl
    · rw [unescape_cons_other _ c cs hc h43, hr]
      rfl

theorem unescape_query_unreserved_id (k : List Nat) (h : ∀ b ∈ k, unreservedByte b = true) :
    unescape EncMode.queryComponent k = some k := by
  induction k with
  | nil => rfl
  | cons c cs ih =>
    obtain ⟨h37, h43, -⟩ := unreservedByte_facts c (h c (by simp))
    have hr := ih (fun x hx => h x (by simp [hx]))
    rw [unescape_cons_other _ c cs h37 h43, hr]
    rfl

theorem shouldEscape_query_unreserved : ∀ b, b < 127 → unreservedByte b = true →
    shouldEscape EncMode.queryComponent b = false := by decide

theorem escape_query_unreserved (k : List Nat) (h : ∀ b ∈ k, unreservedByte b = true) :
    escape EncMode.queryComponent k = k := by
  induction k with
  | nil => rfl
  | cons c cs ih =>
    have hc := h c (by simp)
    have hb : c < 127 := (unreservedByte_facts c hc).2.2.2.2.2.2.2
    have hr := ih (fun x hx => h x (by simp [hx]))
    have he : escapeByte EncMode.queryComponent c = [c] := by
      simp [escapeByte, shouldEscape_query_unreserved c hb hc]
    show escapeByte EncMode.queryComponent c ++ escape EncMode.queryComponent cs = c :: cs
    rw [he, hr]
    rfl

theorem upperHexDigit_isHex : ∀ n, n < 16 → isHexDigit (upperHexDigit n) = true := by decide

theorem hexVal_upperHexDigit : ∀ n, n < 16 → hexVal (upperHexDigit n) = n := by decide

theorem hexVal_lt (b : Nat) (h : isHexDigit b = true) : hexVal b < 16 := by
  simp only [isHexDigit, Bool.or_eq_true, Bool.and_eq_true, decide_eq_true_eq] at h
  unfold hexVal
  by_cases h1 : b ≤ 57 <;> by_cases h2 : b ≤ 70 <;> simp [h1, h2] <;> omega

theorem shouldEscape_query_big (c : Nat) (hge : 127 ≤ c) :
    shouldEscape EncMode.queryComponent c = true := by
  have h1 : isAlphaNumByte c = false := by
    simp only [isAlphaNumByte, Bool.or_eq_false_iff, Bool.and_eq_false_iff,
      decide_eq_false_iff_not]
    omega
  have h2 : (decide (c = 45) || decide (c = 95) || decide (c = 46) || decide (c = 126)) = false := by
    simp only [Bool.or_eq_false_iff, decide_eq_false_iff_not]
    omega
  have h3 : (decide (c = 36) || decide (c = 38) || decide (c = 43) || decide (c = 44) ||
      decide (c = 47) || decide (c = 58) || decide (c = 59) || decide (c = 61) ||
      decide (c = 63) || decide (c = 64)) = false := by
    simp only [Bool.or_eq_false_iff, decide_eq_false_iff_not]
    omega
  unfold shouldEscape
  simp only [h1, h2, h3, Bool.false_eq_true, if_false]

theorem query_kept_unreserved_bounded : ∀ c, c < 127 →
    shouldEscape EncMode.queryComponent c = false → unreservedByte c = true := by decide

theorem query_kept_unreserved (c : Nat) (h : shouldEscape EncMode.queryComponent c = false) :
    unreservedByte c = true := by
  rcases Nat.lt_or_ge c 127 with hlt | hge
  · exact query_kept_unreserved_bounded c hlt h
  · rw [shouldEscape_query_big c hge] at h
    exact absurd h (by decide)

theorem unescape_escape_query (d : List Nat) (h : ∀ x ∈ d, x < 256) :
    unescape EncMode.queryComponent (escape EncMode.queryComponent d) = some d := by
  induction d with
  | nil => rfl
  | cons c cs ih =>
    have hc : c < 256 := h c (by simp)
    have hr := ih (fun x hx => h x (by simp [hx]))
    show unescape EncMode.queryComponent
      (escapeByte EncMode.queryComponent c ++ escape EncMode.queryComponent cs) = some (c :: cs)
    by_cases hesc : shouldEscape EncMode.queryComponent c = true
    · by_cases hsp : c = 32
      · subst hsp
        have he : escapeByte EncMode.queryComponent 32 = [43] := by
          simp [escapeByte, hesc]
        rw [he]
        show unescape EncMode.queryComponent (43 :: escape EncMode.queryComponent cs) = _
        rw [unescape_cons_plus, hr]
        rfl
      · have h1 : c / 16 < 16 := by omega
        have h2 : c % 16 < 16 := by omega
        have he : escapeByte EncMode.queryComponent c =
            [37, upperHexDigit (c / 16), upperHexDigit (c % 16)] := by
          simp [escapeByte, hesc, hsp]
        rw [he]
        show unescape EncMode.queryComponent (37 :: upperHexDigit (c / 16) ::
          upperHexDigit (c % 16) :: escape EncMode.queryComponent cs) = _
        rw [unescape_percent _ _ _ _
          (by rw [upperHexDigit_isHex _ h1, upperHexDigit_isHex _ h2]; rfl), hr]
        have hv : hexVal (upperHexDigit (c / 16)) * 16 + hexVal (upperHexDigit (c % 16)) = c := by
          rw [hexVal_upperHexDigit _ h1, hexVal_upperHexDigit _ h2]
          omega
        rw [hv]
        rfl
    · have hesc' : shouldEscape EncMode.queryComponent c = false := by
        cases hq : shouldEscape EncMode.queryComponent c
        · rfl
        · exact absurd hq hesc
      obtain ⟨h37, h43, -⟩ := unreservedByte_facts c (query_kept_unreserved c hesc')
      have he : escapeByte EncMode.queryComponent c = [c] := by
        simp [escapeByte, hesc']
      rw [he]
      show unescape EncMode.queryComponent (c :: escape EncMode.queryComponent cs) = _
      rw [unescape_cons_other _ _ _ h37 h43, hr]
      rfl

theorem validEscaped_escape_query (s : List Nat) (h : ∀ x ∈ s, x < 256) :
    validEscapedValue (escape EncMode.queryComponent s) = true := by
  induction s with
  | nil => rfl
  | cons c cs ih =>
    have hc : c < 256 := h c (by simp)
    have hr := ih (fun x hx => h x (by simp [hx]))
    show validEscapedValue
      (escapeByte EncMode.queryComponent c ++ escape EncMode.queryComponent cs) = true
    by_cases hesc : shouldEscape EncMode.queryComponent c = true
    · by_cases hsp : c = 32
      · subst hsp
        have he : escapeByte EncMode.queryComponent 32 = [43] := by
          simp [escapeByte, hesc]
        rw [he]
        show validEscapedValue (43 :: escape EncMode.queryComponent cs) = true
        rw [validEscapedValue_cons_other _ _ (by norm_num), hr]
        simp
      · have h1 : c / 16 < 16 := by omega
        have h2 : c % 16 < 16 := by omega
        have he : escapeByte EncMode.queryComponent c =
            [37, upperHexDigit (c / 16), upperHexDigit (c % 16)] := by
          simp [escapeByte, hesc, hsp]
        rw [he]
        show validEscapedValue (37 :: upperHexDigit (c / 16) ::
          upperHexDigit (c % 16) :: escape EncMode.queryComponent cs) = true
        rw [validEscapedValue_percent, upperHexDigit_isHex _ h1, upperHexDigit_isHex _ h2, hr]
        rfl
    · have hesc' : shouldEscape EncMode.queryComponent c = false := by
        cases hq : shouldEscape EncMode.queryComponent c
        · rfl
        · exact absurd hq hesc
      have hu := query_kept_unreserved c hesc'
      have h37 : ¬ c = 37 := (unreservedByte_facts c hu).1
      have he : escapeByte EncMode.queryComponent c = [c] := by
        simp [escapeByte, hesc']
      rw [he]
      show validEscapedValue (c :: escape EncMode.queryComponent cs) = true
      rw [validEscapedValue_cons_other _ _ h37, hu, hr]
      rfl

theorem hexDigit_byte_facts (a : Nat) (h : isHexDigit a = true) :
    ¬ a = 38 ∧ ¬ a = 61 ∧ ¬ a = 35 ∧ ¬ a = 63 ∧ isCtlByte a = false := by
  simp only [isHexDigit, Bool.or_eq_true, Bool.and_eq_true, decide_eq_true_eq] at h
  simp only [isCtlByte, Bool.or_eq_false_iff, decide_eq_false_iff_not]
  omega

theorem unescape_validEscaped (v : List Nat) (h : validEscapedValue v = true) :
    ∃ d, unescape EncMode.queryComponent v = some d ∧ ∀ x ∈ d, x < 256 := by
  induction v using validEscapedValue.induct with
  | case1 => exact ⟨[], rfl, by simp⟩
  | case2 a b r ih =>
    rw [validEscapedValue_percent] at h
    simp only [Bool.and_eq_true] at h
    obtain ⟨⟨ha, hb⟩, hrv⟩ := h
    obtain ⟨d, hd, hdb⟩ := ih hrv
    refine ⟨(hexVal a * 16 + hexVal b) :: d, ?_, ?_⟩
    · rw [unescape_percent _ _ _ _ (by simp [ha, hb]), hd]
      rfl
    · intro x hx
      rcases List.mem_cons.1 hx with h1 | h2
      · have hva := hexVal_lt a ha
        have hvb := hexVal_lt b hb
        omega
      · exact hdb x h2
  | case3 rest hshape =>
    exfalso
    cases rest with
    | nil => exact absurd h (by decide)
    | cons a tail =>
      cases tail with
      | nil =>
        have he : validEscapedValue (37 :: a :: List.nil) = false := rfl
        rw [he] at h
        exact absurd h (by decide)
      | cons b r => exact hshape a b r rfl
  | case4 b0 rest h37 ih =>
    rw [validEscapedValue_cons_other _ _ h37] at h
    simp only [Bool.and_eq_true] at h
    obtain ⟨hb0, hrest⟩ := h
    obtain ⟨d, hd, hdb⟩ := ih hrest
    by_cases h43 : b0 = 43
    · subst h43
      refine ⟨32 :: d, ?_, ?_⟩
      · rw [unescape_cons_plus, hd]
        rfl
      · intro x hx
        rcases List.mem_cons.1 hx with h1 | h2
        · omega
        · exact hdb x h2
    · have hu : unreservedByte b0 = true := by
        simp only [Bool.or_eq_true, decide_eq_true_eq] at hb0
        tauto
      have hlt : b0 < 127 := (unreservedByte_facts b0 hu).2.2.2.2.2.2.2
      refine ⟨b0 :: d, ?_, ?_⟩
      · rw [unescape_cons_other _ _ _ h37 h43, hd]
        rfl
      · intro x hx
        rcases List.mem_cons.1 hx with h1 | h2
        · omega
        · exact hdb x h2

theorem validEscaped_bytes (v : List Nat) (h : validEscapedValue v = true) :
    ∀ x ∈ v, ¬ x = 38 ∧ ¬ x = 61 ∧ ¬ x = 35 ∧ ¬ x = 63 ∧ isCtlByte x = false := by
  induction v using validEscapedValue.induct with
  | case1 => simp
  | case2 a b r ih =>
    rw [validEscapedValue_percent] at h
    simp only [Bool.and_eq_true] at h
    obtain ⟨⟨ha, hb⟩, hrv⟩ := h
    intro x hx
    rcases List.mem_cons.1 hx with h1 | hx2
    · subst h1
      exact ⟨by omega, by omega, by omega, by omega, rfl⟩
    rcases List.mem_cons.1 hx2 with h2 | hx3
    · subst h2
      exact hexDigit_byte_facts x ha
    rcases List.mem_cons.1 hx3 with h3 | hx4
    · subst h3
      exact hexDigit_byte_facts x hb
    · exact ih hrv x hx4
  | case3 rest hshape =>
    exfalso
    cases rest with
    | nil => exact absurd h (by decide)
    | cons a tail =>
      cases tail with
      | nil =>
        have he : validEscapedValue (37 :: a :: List.nil) = false := rfl
        rw [he] at h
        exact absurd h (by decide)
      | cons b r => exact hshape a b r rfl
  | case4 b0 rest h37 ih =>
    rw [validEscapedValue_cons_other _ _ h37] at h
    simp only [Bool.and_eq_true] at h
    obtain ⟨hb0, hrest⟩ := h
    intro x hx
    rcases List.mem_cons.1 hx with h1 | h2
    · subst h1
      by_cases h43 : x = 43
      · subst h43
        exact ⟨by omega, by omega, by omega, by omega, rfl⟩
      · have hu : unreservedByte x = true := by
          simp only [Bool.or_eq_true, decide_eq_true_eq] at hb0
          tauto
        obtain ⟨-, -, f38, f61, f35, f63, fctl, -⟩ := unreservedByte_facts x hu
        exact ⟨f38, f61, f35, f63, fctl⟩
    · exact ih hrest x h2

/-- Decoding every query value succeeds on correctly escaped values, and
the decoded list is related entry-wise to the original. -/
theorem decodeQueryVals_some (query : List (List Nat × List Nat))
    (h : ∀ kv ∈ query, validEscapedValue kv.2 = true) :
    ∃ decoded, decodeQueryVals query = some decoded ∧
      List.Forall₂ (fun kv dkv => kv.1 = dkv.1 ∧
        unescape EncMode.queryComponent kv.2 = some dkv.2 ∧ ∀ x ∈ dkv.2, x < 256)
        query decoded := by
  induction query with
  | nil => exact ⟨[], rfl, List.Forall₂.nil⟩
  | cons kv rest ih =>
    obtain ⟨d, hd, hdlt⟩ := unescape_validEscaped kv.2 (h kv (by simp))
    obtain ⟨tail, htail, hf⟩ := ih (fun x hx => h x (by simp [hx]))
    refine ⟨(kv.1, d) :: tail, ?_, List.Forall₂.cons ⟨rfl, hd, hdlt⟩ hf⟩
    simp only [decodeQueryVals, hd, htail]

/-- A single malformed query value makes the whole per-value decode fail. -/
theorem decodeQueryVals_none (query : List (List Nat × List Nat))
    (h : ∃ kv ∈ query, unescape EncMode.queryComponent kv.2 = none) :
    decodeQueryVals query = none := by
  induction query with
  | nil => simp at h
  | cons kv rest ih =>
    rcases h with ⟨x, hx, hxe⟩
    rcases List.mem_cons.1 hx with h1 | h2
    · subst h1
      simp only [decodeQueryVals, hxe]
    · rw [decodeQueryVals, ih ⟨x, h2, hxe⟩]
      cases unescape EncMode.queryComponent kv.2 <;> rfl

theorem forall2_fst_eq (l1 l2 : List (List Nat × List Nat))
    (h : List.Forall₂ (fun kv dkv => kv.1 = dkv.1 ∧
      unescape EncMode.queryComponent kv.2 = some dkv.2 ∧ ∀ x ∈ dkv.2, x < 256) l1 l2) :
    l1.map Prod.fst = l2.map Prod.fst := by
  induction h with
  | nil => rfl
  | cons h1 h2 ih => simp [h1.1, ih]

/-! ## URL-parsing walk lemmas -/

theorem urlParse_no_frag (s : List Nat) (h35 : ∀ b ∈ s, ¬ b = 35) :
    urlParse s = parseNoScheme s := by
  unfold urlParse
  rw [cutByte_not_found s 35 h35]
  cases hp : parseNoScheme s <;> simp [hp]

theorem parseNoScheme_slash (t : List Nat)
    (hctl : (47 :: t).any isCtlByte = false) :
    parseNoScheme (47 :: t) = parseRest (47 :: t) := by
  unfold parseNoScheme
  rw [hctl]
  simp only [Bool.false_eq_true, if_false]
  rw [if_neg (by simp)]
  simp only [List.head?]
  rw [if_neg (by omega), if_neg (by omega)]

theorem parseRest_no_query (p : List Nat) (h63 : ∀ b ∈ p, ¬ b = 63) :
    parseRest p =
      (if p.head? ≠ some 47 ∧ (cutByte p 47).1.contains 58 = true then none
      else if p.take 2 = [47, 47] ∧ ¬ p.take 3 = [47, 47, 47] then none
      else match unescape EncMode.path p with
        | none => none
        | some q =>
            some { path := q, rawPath := if p = escape EncMode.path q then [] else p,
                   forceQuery := false, rawQuery := [] }) := by
  have hend : ¬ p.getLast? = some 63 := by
    intro hl
    exact h63 63 (List.mem_of_getLast?_eq_some hl) rfl
  unfold parseRest
  rw [cutByte_not_found p 63 h63]
  simp only [decide_eq_false hend, Bool.false_and, Bool.false_eq_true, if_false]

theorem parseRest_split (path qs : List Nat) (hpath : ∀ b ∈ path, ¬ b = 63)
    (hq : ¬ qs = []) :
    parseRest (path ++ 63 :: qs) =
      (if path.head? ≠ some 47 ∧ (cutByte path 47).1.contains 58 = true then none
      else if path.take 2 = [47, 47] ∧ ¬ path.take 3 = [47, 47, 47] then none
      else match unescape EncMode.path path with
        | none => none
        | some p =>
            some { path := p, rawPath := if path = escape EncMode.path p then [] else path,
                   forceQuery := false, rawQuery := qs }) := by
  have hfq : (decide ((path ++ 63 :: qs).getLast? = some 63) &&
      !(List.contains (path ++ 63 :: qs).dropLast 63)) = false := by
    by_cases hend : (path ++ 63 :: qs).getLast? = some 63
    · have hmem : (63 : Nat) ∈ (path ++ 63 :: qs).dropLast := by
        rw [List.dropLast_append_cons]
        cases qs with
        | nil => exact absurd rfl hq
        | cons z zs => simp [List.dropLast]
      have hcont : List.contains ((path ++ 63 :: qs).dropLast) 63 = true := by
        simpa [List.contains] using hmem
      rw [decide_eq_true hend]
      simp only [Bool.true_and]
      rw [hcont]
      rfl
    · rw [decide_eq_false hend]
      rfl
  unfold parseRest
  simp only [hfq, Bool.false_eq_true, if_false, cutByte_found path qs 63 hpath]

theorem urlParse_plain_path (path : List Nat) (t : List Nat) (h0 : path = 47 :: t)
    (h1 : ¬ path.take 2 = [47, 47])
    (h2 : ∀ b ∈ path, ¬ b = 37 ∧ ¬ b = 63 ∧ ¬ b = 35 ∧ isCtlByte b = false) :
    urlParse path =
      some { path := path, rawPath := if path = escape EncMode.path path then [] else path,
             forceQuery := false, rawQuery := [], fragment := [], rawFragment := [] } := by
  have hctl : path.any isCtlByte = false := by
    rw [List.any_eq_false]
    intro x hx
    rw [(h2 x hx).2.2.2]
    simp
  rw [urlParse_no_frag path (fun b hb => (h2 b hb).2.2.1)]
  rw [h0, parseNoScheme_slash t (h0 ▸ hctl), ← h0]
  rw [parseRest_no_query path (fun b hb => (h2 b hb).2.1)]
  rw [if_neg (by rw [h0]; simp)]
  rw [if_neg (by intro hcon; exact h1 hcon.1)]
  rw [unescape_path_id path (fun b hb => (h2 b hb).1)]

theorem parseRest_rawQuery (s : List Nat) (u : GoURL) (h63 : ∀ b ∈ s, ¬ b = 63)
    (hu : parseRest s = some u) : u.rawQuery = [] := by
  rw [parseRest_no_query s h63] at hu
  by_cases h1 : (s.head? ≠ some 47 ∧ (cutByte s 47).1.contains 58 = true)
  · rw [if_pos h1] at hu
    cases hu
  · rw [if_neg h1] at hu
    by_cases h2 : (s.take 2 = [47, 47] ∧ ¬ s.take 3 = [47, 47, 47])
    · rw [if_pos h2] at hu
      cases hu
    · rw [if_neg h2] at hu
      cases hm : unescape EncMode.path s with
      | none =>
        rw [hm] at hu
        cases hu
      | some p =>
        rw [hm] at hu
        cases hu
        rfl

theorem parseNoScheme_rawQuery (s : List Nat) (u : GoURL) (h63 : ∀ b ∈ s, ¬ b = 63)
    (hu : parseNoScheme s = some u) : u.rawQuery = [] := by
  unfold parseNoScheme at hu
  by_cases hctl : s.any isCtlByte = true
  · rw [if_pos hctl] at hu
    cases hu
  · rw [if_neg hctl] at hu
    by_cases h42 : s = [42]
    · rw [if_pos h42] at hu
      cases hu
      rfl
    · rw [if_neg h42] at hu
      cases hs : s.head? with
      | none =>
        simp only [hs] at hu
        exact parseRest_rawQuery s u h63 hu
      | some h =>
        simp only [hs] at hu
        by_cases hl : (65 ≤ h ∧ h ≤ 90) ∨ (97 ≤ h ∧ h ≤ 122)
        · rw [if_pos hl] at hu
          cases hu
        · rw [if_neg hl] at hu
          by_cases h58 : h = 58
          · rw [if_pos h58] at hu
            cases hu
          · rw [if_neg h58] at hu
            exact parseRest_rawQuery s u h63 hu

theorem urlParse_rawQuery_empty (s : List Nat) (u : GoURL) (h63 : ∀ b ∈ s, ¬ b = 63)
    (h35 : ∀ b ∈ s, ¬ b = 35) (hu : urlParse s = some u) : u.rawQuery = [] := by
  rw [urlParse_no_frag s h35] at hu
  exact parseNoScheme_rawQuery s u h63 hu

/-- The joined pair list of a non-empty query map is a non-empty byte string
(every `k=v` component contains at least the `=`). -/
theorem joinSep_pairs_ne_nil (query : List (List Nat × List Nat)) (hne : ¬ query = []) :
    ¬ joinSep 38 (query.map (fun kv => kv.1 ++ 61 :: kv.2)) = [] := by
  cases query with
  | nil => exact absurd rfl hne
  | cons kv rest =>
    cases rest with
    | nil => simp [joinSep]
    | cons kv2 t =>
      have hj : joinSep 38 ((kv :: kv2 :: t).map (fun kv => kv.1 ++ 61 :: kv.2)) =
          (kv.1 ++ 61 :: kv.2) ++ 38 :: joinSep 38 ((kv2 :: t).map (fun kv => kv.1 ++ 61 :: kv.2)) := rfl
      rw [hj]
      simp

/-- Reading off the raw query produced by a successful fast-path
`buildURL` with a non-empty query map. -/
theorem buildURL_rawQuery (path : List Nat) (query : List (List Nat × List Nat)) (u : GoURL)
    (hne : ¬ query = [])
    (hpath : ∀ b ∈ path, ¬ b = 63 ∧ ¬ b = 35)
    (hkv : ∀ kv ∈ query, (∀ b ∈ kv.1, ¬ b = 38 ∧ ¬ b = 61 ∧ ¬ b = 35) ∧
      (∀ b ∈ kv.2, ¬ b = 38 ∧ ¬ b = 35))
    (hu : buildURL path query = some u) :
    u.rawQuery = joinSep 38 (query.map (fun kv => kv.1 ++ 61 :: kv.2)) := by
  set qs := joinSep 38 (query.map (fun kv => kv.1 ++ 61 :: kv.2)) with hqs
  have hqne : ¬ qs = [] := joinSep_pairs_ne_nil query hne
  have hqs35 : ∀ b ∈ qs, ¬ b = 35 := by
    intro b hb
    rcases mem_joinSep 38 _ b hb with h38 | ⟨p, hp, hbp⟩
    · omega
    · rcases List.mem_map.1 hp with ⟨kv, hkv2, hrend⟩
      subst hrend
      rcases List.mem_append.1 hbp with hk | hv
      · exact (hkv kv hkv2).1 b hk |>.2.2
      · rcases List.mem_cons.1 hv with h61 | hv2
        · omega
        · exact ((hkv kv hkv2).2 b hv2).2
  have hbuilt35 : ∀ b ∈ path ++ 63 :: qs, ¬ b = 35 := by
    intro b hb
    rcases List.mem_append.1 hb with h1 | h2
    · exact (hpath b h1).2
    · rcases List.mem_cons.1 h2 with h3 | h4
      · omega
      · exact hqs35 b h4
  have hmem63 : (63 : Nat) ∈ path ++ 63 :: qs := List.mem_append.2 (Or.inr (by simp))
  have hbu : urlParse (path ++ 63 :: qs) = some u := by
    unfold buildURL at hu
    rw [if_neg (by simpa [List.isEmpty_iff] using hne)] at hu
    exact hu
  rw [urlParse_no_frag _ hbuilt35] at hbu
  unfold parseNoScheme at hbu
  by_cases hctl : (path ++ 63 :: qs).any isCtlByte = true
  · rw [if_pos hctl] at hbu
    cases hbu
  · rw [if_neg hctl] at hbu
    by_cases h42 : path ++ 63 :: qs = [42]
    · rw [h42] at hmem63
      simp at hmem63
    · rw [if_neg h42] at hbu
      have hsplit := parseRest_split path qs (fun b hb => (hpath b hb).1) hqne
      have hrest : ∀ v, parseRest (path ++ 63 :: qs) = some v → v.rawQuery = qs := by
        intro v hv
        rw [hsplit] at hv
        by_cases h1 : (path.head? ≠ some 47 ∧ (cutByte path 47).1.contains 58 = true)
        · rw [if_pos h1] at hv
          cases hv
        · rw [if_neg h1] at hv
          by_cases h2 : (path.take 2 = [47, 47] ∧ ¬ path.take 3 = [47, 47, 47])
          · rw [if_pos h2] at hv
            cases hv
          · rw [if_neg h2] at hv
            cases hm : unescape EncMode.path path with
            | none =>
              rw [hm] at hv
              cases hv
            | some p =>
              rw [hm] at hv
              cases hv
              rfl
      cases hs : (path ++ 63 :: qs).head? with
      | none =>
        rw [List.head?_eq_none_iff] at hs
        rw [hs] at hmem63
        cases hmem63
      | some h =>
        simp only [hs] at hbu
        by_cases hl : (65 ≤ h ∧ h ≤ 90) ∨ (97 ≤ h ∧ h ≤ 122)
        · rw [if_pos hl] at hbu
          cases hbu
        · rw [if_neg hl] at hbu
          by_cases h58 : h = 58
          · rw [if_pos h58] at hbu
            cases hbu
          · rw [if_neg h58] at hbu
            exact hrest u hbu

/-- Splitting the joined pair list back into raw pairs recovers the map. -/
theorem queryPairs_joinSep (query : List (List Nat × List Nat))
    (hkv : ∀ kv ∈ query, (∀ b ∈ kv.1, ¬ b = 38 ∧ ¬ b = 61) ∧ (∀ b ∈ kv.2, ¬ b = 38)) :
    queryPairs (joinSep 38 (query.map (fun kv => kv.1 ++ 61 :: kv.2))) = query := by
  cases hq : query with
  | nil => rfl
  | cons kv0 rest =>
    rw [← hq]
    have hne : ¬ query.map (fun kv => kv.1 ++ 61 :: kv.2) = [] := by
      rw [hq]
      simp
    have hsep : ∀ p ∈ query.map (fun kv => kv.1 ++ 61 :: kv.2), ∀ x ∈ p, ¬ x = 38 := by
      intro p hp x hx
      rcases List.mem_map.1 hp with ⟨kv, hkv2, hrend⟩
      subst hrend
      rcases List.mem_append.1 hx with hk | hv
      · exact ((hkv kv hkv2).1 x hk).1
      · rcases List.mem_cons.1 hv with h61 | hv2
        · omega
        · exact (hkv kv hkv2).2 x hv2
    unfold queryPairs
    rw [splitOnByte_joinSep 38 _ hne hsep]
    rw [List.filter_eq_self.2 (by
      intro p hp
      rcases List.mem_map.1 hp with ⟨kv, hkv2, hrend⟩
      subst hrend
      simp)]
    rw [List.map_map]
    have : ∀ kv ∈ query, (cutEq ∘ fun kv => kv.1 ++ 61 :: kv.2) kv = kv := by
      intro kv hkv2
      show cutEq (kv.1 ++ 61 :: kv.2) = kv
      rw [cutEq_append kv.1 kv.2 (fun b hb => ((hkv kv hkv2).1 b hb).2)]
    rw [List.map_congr_left this]
    simp

/-! ## Lemmas for comparing the two URL strategies -/

theorem forall2_exists_left {R : (List Nat × List Nat) → (List Nat × List Nat) → Prop}
    {l1 l2 : List (List Nat × List Nat)} (h : List.Forall₂ R l1 l2)
    (b : List Nat × List Nat) (hb : b ∈ l2) : ∃ a ∈ l1, R a b := by
  induction h with
  | nil => cases hb
  | cons h1 h2 ih =>
    rcases List.mem_cons.1 hb with hb1 | hb2
    · subst hb1
      exact ⟨_, by simp, h1⟩
    · rcases ih hb2 with ⟨a, ha, hr⟩
      exact ⟨a, by simp [ha], hr⟩

/-- The fast path succeeds on a well-formed path and correctly escaped
query map, and its raw query is the direct concatenation of the pairs. -/
theorem buildURL_wellformed (path : List Nat) (t : List Nat)
    (query : List (List Nat × List Nat))
    (h0 : path = 47 :: t) (h1 : ¬ path.take 2 = [47, 47])
    (h2 : ∀ b ∈ path, ¬ b = 37 ∧ ¬ b = 63 ∧ ¬ b = 35 ∧ isCtlByte b = false)
    (hne : ¬ query = [])
    (hkeys : ∀ kv ∈ query, ∀ b ∈ kv.1, unreservedByte b = true)
    (hvals : ∀ kv ∈ query, validEscapedValue kv.2 = true) :
    buildURL path query =
      some { path := path, rawPath := if path = escape EncMode.path path then [] else path,
             forceQuery := false,
             rawQuery := joinSep 38 (query.map (fun kv => kv.1 ++ 61 :: kv.2)),
             fragment := [], rawFragment := [] } := by
  set qs := joinSep 38 (query.map (fun kv => kv.1 ++ 61 :: kv.2)) with hqsdef
  have hqne : ¬ qs = [] := joinSep_pairs_ne_nil query hne
  have hqsfacts : ∀ b ∈ qs, ¬ b = 35 ∧ isCtlByte b = false := by
    intro b hb
    rcases mem_joinSep 38 _ b hb with h38 | ⟨p, hp, hbp⟩
    · subst h38
      exact ⟨by omega, rfl⟩
    · rcases List.mem_map.1 hp with ⟨kv, hkv2, hrend⟩
      subst hrend
      rcases List.mem_append.1 hbp with hk | hv
      · obtain ⟨-, -, -, -, f35, -, fctl, -⟩ := unreservedByte_facts b (hkeys kv hkv2 b hk)
        exact ⟨f35, fctl⟩
      · rcases List.mem_cons.1 hv with h61 | hv2
        · subst h61
          exact ⟨by omega, rfl⟩
        · obtain ⟨-, -, f35, -, fctl⟩ := validEscaped_bytes kv.2 (hvals kv hkv2) b hv2
          exact ⟨f35, fctl⟩
  have hbuilt35 : ∀ b ∈ path ++ 63 :: qs, ¬ b = 35 := by
    intro b hb
    rcases List.mem_append.1 hb with hp | hq2
    · exact (h2 b hp).2.2.1
    · rcases List.mem_cons.1 hq2 with h63 | h4
      · omega
      · exact (hqsfacts b h4).1
  have hbuiltctl : (path ++ 63 :: qs).any isCtlByte = false := by
    rw [List.any_eq_false]
    intro b hb
    rcases List.mem_append.1 hb with hp | hq2
    · rw [(h2 b hp).2.2.2]
      simp
    · rcases List.mem_cons.1 hq2 with h63 | h4
      · subst h63
        simp [isCtlByte]
      · rw [(hqsfacts b h4).2]
        simp
  have hb2 : buildURL path query = urlParse (path ++ 63 :: qs) := by
    unfold buildURL
    rw [if_neg (by simpa [List.isEmpty_iff] using hne)]
  rw [hb2, urlParse_no_frag _ hbuilt35]
  have hshape : path ++ 63 :: qs = 47 :: (t ++ 63 :: qs) := by
    rw [h0]
    rfl
  rw [hshape, parseNoScheme_slash (t ++ 63 :: qs) (hshape ▸ hbuiltctl), ← hshape]
  rw [parseRest_split path qs (fun b hb => (h2 b hb).2.1) hqne]
  rw [if_neg (by
    intro hcon
    exact hcon.1 (by rw [h0]; rfl))]
  rw [if_neg (fun hcon => h1 hcon.1)]
  rw [unescape_path_id path (fun b hb => (h2 b hb).1)]

/-- The conservative strategy succeeds on correctly escaped values with
distinct keys, decoding values entry-wise and emitting the canonical
re-encoding of the decoded map. -/
theorem conservativeURL_wellformed (path : List Nat) (query : List (List Nat × List Nat))
    (hne : ¬ query = [])
    (hvals : ∀ kv ∈ query, validEscapedValue kv.2 = true)
    (hnodup : (query.map Prod.fst).Nodup) :
    ∃ decoded, decodeQueryVals query = some decoded ∧
      List.Forall₂ (fun kv dkv => kv.1 = dkv.1 ∧
        unescape EncMode.queryComponent kv.2 = some dkv.2 ∧ ∀ x ∈ dkv.2, x < 256)
        query decoded ∧
      conservativeURL path query =
        some { path := path, rawPath := [], forceQuery := false,
               rawQuery := encodeValues decoded, fragment := [], rawFragment := [] } := by
  obtain ⟨decoded, hdec, hf⟩ := decodeQueryVals_some query hvals
  have hdnodup : (decoded.map Prod.fst).Nodup := by
    rw [← forall2_fst_eq query decoded hf]
    exact hnodup
  refine ⟨decoded, hdec, hf, ?_⟩
  unfold conservativeURL
  rw [if_neg (by simpa [List.isEmpty_iff] using hne)]
  simp only [hdec]
  rw [foldl_valsSet decoded [] (by simp) hdnodup]
  rfl

/-- Decoding the raw pairs of the directly concatenated query recovers the
entry-wise decoded map. -/
theorem decodedQueryPairs_fast (query decoded : List (List Nat × List Nat))
    (hkeys : ∀ kv ∈ query, ∀ b ∈ kv.1, unreservedByte b = true)
    (hvals : ∀ kv ∈ query, validEscapedValue kv.2 = true)
    (hf : List.Forall₂ (fun kv dkv => kv.1 = dkv.1 ∧
      unescape EncMode.queryComponent kv.2 = some dkv.2 ∧ ∀ x ∈ dkv.2, x < 256)
      query decoded) :
    decodedQueryPairs (joinSep 38 (query.map (fun kv => kv.1 ++ 61 :: kv.2))) = some decoded := by
  unfold decodedQueryPairs
  rw [queryPairs_joinSep query (by
    intro kv hkv
    constructor
    · intro b hb
      obtain ⟨-, -, f38, f61, -⟩ := unreservedByte_facts b (hkeys kv hkv b hb)
      exact ⟨f38, f61⟩
    · intro b hb
      exact (validEscaped_bytes kv.2 (hvals kv hkv) b hb).1)]
  clear hvals
  induction hf with
  | nil => rfl
  | cons h1 h2 ih =>
    rename_i kv dkv tl1 tl2
    obtain ⟨hk, hv, -⟩ := h1
    have hkey : unescape EncMode.queryComponent kv.1 = some kv.1 :=
      unescape_query_unreserved_id kv.1 (hkeys kv (by simp))
    rw [decodePairs, hkey, hv, ih (fun x hx b hb => hkeys x (by simp [hx]) b hb)]
    rw [hk]

/-- Decoding the raw pairs of the canonical `Values.Encode` output recovers
the key-sorted decoded map. -/
theorem decodedQueryPairs_encodeValues (vals : List (List Nat × List Nat))
    (hkeys : ∀ kv ∈ vals, ∀ b ∈ kv.1, unreservedByte b = true)
    (hlt : ∀ kv ∈ vals, ∀ x ∈ kv.2, x < 256) :
    decodedQueryPairs (encodeValues vals) = some (sortByKey vals) := by
  have hmemsort : ∀ kv ∈ sortByKey vals, kv ∈ vals :=
    fun kv hkv => ((sortByKey_perm vals).mem_iff).1 hkv
  unfold encodeValues decodedQueryPairs
  rw [show (sortByKey vals).map
        (fun kv => escape EncMode.queryComponent kv.1 ++ 61 :: escape EncMode.queryComponent kv.2) =
      ((sortByKey vals).map
        (fun kv => (escape EncMode.queryComponent kv.1, escape EncMode.queryComponent kv.2))).map
        (fun kv => kv.1 ++ 61 :: kv.2) by
    rw [List.map_map]
    rfl]
  rw [queryPairs_joinSep _ (by
    intro kv hkv
    rcases List.mem_map.1 hkv with ⟨kv0, hkv0, hrend⟩
    subst hrend
    have hkv0mem := hmemsort kv0 hkv0
    constructor
    · intro b hb
      rw [escape_query_unreserved kv0.1 (hkeys kv0 hkv0mem)] at hb
      obtain ⟨-, -, f38, f61, -⟩ := unreservedByte_facts b (hkeys kv0 hkv0mem b hb)
      exact ⟨f38, f61⟩
    · intro b hb
      exact (validEscaped_bytes _ (validEscaped_escape_query kv0.2 (hlt kv0 hkv0mem)) b hb).1)]
  have hgen : ∀ l : List (List Nat × List Nat), (∀ kv ∈ l, kv ∈ vals) →
      decodePairs (l.map (fun kv =>
        (escape EncMode.queryComponent kv.1, escape EncMode.queryComponent kv.2))) = some l := by
    intro l
    induction l with
    | nil => intro _; rfl
    | cons kv tl ih =>
      intro hsub
      have hkvmem := hsub kv (by simp)
      have hek : escape EncMode.queryComponent kv.1 = kv.1 :=
        escape_query_unreserved kv.1 (hkeys kv hkvmem)
      have hdk : unescape EncMode.queryComponent (escape EncMode.queryComponent kv.1) = some kv.1 := by
        rw [hek]
        exact unescape_query_unreserved_id kv.1 (hkeys kv hkvmem)
      have hdv : unescape EncMode.queryComponent (escape EncMode.queryComponent kv.2) = some kv.2 :=
        unescape_escape_query kv.2 (hlt kv hkvmem)
      rw [List.map_cons, decodePairs, hdk, hdv, ih (fun x hx => hsub x (by simp [hx]))]
  exact hgen (sortByKey vals) hmemsort

/-! ## Claim theorems -/

/-- C1: the Response Encoder emits the raw body with `isBase64Encoded =
false` exactly when the captured body bytes are valid UTF-8, and the
standard base64 encoding with `isBase64Encoded = true` exactly when they
are not; hence `isBase64Encoded` is true iff the body is not valid UTF-8. -/
theorem response_encoder_utf8_switch (res : CapturedResponse) :
    ((encodeResponse res).bodyEncoded = true ↔ utf8Valid res.body = false) ∧
    (encodeResponse res).body =
      (if utf8Valid res.body then res.body else b64Encode res.body) := by
  constructor
  · simp [encodeResponse]
  · rfl

/-- C2: decoding the outbound envelope's body field — base64-decoding it
when `isBase64Encoded` is set, taking the raw bytes otherwise — recovers
exactly the captured response body. -/
theorem response_encoder_roundtrip (res : CapturedResponse)
    (h : ∀ x ∈ res.body, x < 256) :
    decodeEnvelopeBody (encodeResponse res) = some res.body := by
  by_cases hv : utf8Valid res.body
  · simp [decodeEnvelopeBody, encodeResponse, hv]
  · simp [decodeEnvelopeBody, encodeResponse, hv, b64_roundtrip res.body h]

/-- Witness for C2 at the non-UTF-8 body `[0xFF, 0xFE, 0x00, 0x01]`. -/
theorem response_encoder_roundtrip_witness :
    decodeEnvelopeBody (encodeResponse
      { statusCode := 200, status := [], headers := [], body := [255, 254, 0, 1] }) =
    some [255, 254, 0, 1] :=
  response_encoder_roundtrip
    { statusCode := 200, status := [], headers := [], body := [255, 254, 0, 1] }
    (by decide)

/-- C3: with `isBase64Encoded = false`, the request handed to the handler
carries exactly the raw bytes of the event's body string, and its declared
content length is that byte count — under either URL strategy. -/
theorem plain_body_passthrough (ev : InboundEvent) (h : ev.bodyEncoded = false) :
    (∀ r, buildRequestWith buildURL ev = some r →
        r.body = ev.body ∧ r.contentLength = ev.body.length) ∧
    (∀ r, buildRequestWith conservativeURL ev = some r →
        r.body = ev.body ∧ r.contentLength = ev.body.length) :=
  ⟨fun r hr => buildRequestWith_plain_body buildURL ev h r hr,
   fun r hr => buildRequestWith_plain_body conservativeURL ev h r hr⟩

/-- A concrete plain-body event for the C3 witness. -/
def evPlain : InboundEvent :=
  { method := [71, 69, 84], path := [47], query := [], headers := [],
    body := [104, 105], bodyEncoded := false }

/-- The request built from `evPlain`. -/
def reqPlain : StandardRequest :=
  { method := [71, 69, 84], url := { path := [47] }, headers := [], host := [],
    body := [104, 105], contentLength := 2 }

/-- Witness for C3. -/
theorem plain_body_passthrough_witness :
    reqPlain.body = evPlain.body ∧ reqPlain.contentLength = evPlain.body.length :=
  (plain_body_passthrough evPlain rfl).1 reqPlain (by decide)

/-- C4: with `isBase64Encoded = true`, a body that decodes as standard
base64 reaches the handler as the decoded bytes with matching content
length; a body that is not valid base64 aborts the translation with the
decode error: no envelope is produced (`none`) and the handler — whatever
it is — is never invoked, under either URL strategy. -/
theorem encoded_body_decode_or_abort (ev : InboundEvent) (h : ev.bodyEncoded = true) :
    (∀ d, b64Decode ev.body = some d →
      (∀ r, buildRequestWith buildURL ev = some r →
          r.body = d ∧ r.contentLength = d.length) ∧
      (∀ r, buildRequestWith conservativeURL ev = some r →
          r.body = d ∧ r.contentLength = d.length)) ∧
    (b64Decode ev.body = none →
      ∀ hf, lambdaRun hf ev = none ∧ lambdaRunConservative hf ev = none) := by
  constructor
  · intro d hd
    exact ⟨fun r hr => buildRequestWith_encoded_body buildURL ev h d hd r hr,
           fun r hr => buildRequestWith_encoded_body conservativeURL ev h d hd r hr⟩
  · intro hd hf
    constructor
    · show (buildRequestWith buildURL ev).map _ = none
      rw [buildRequestWith_encoded_fail buildURL ev h hd]
      rfl
    · show (buildRequestWith conservativeURL ev).map _ = none
      rw [buildRequestWith_encoded_fail conservativeURL ev h hd]
      rfl

/-- A concrete base64-body event (`body = "aGk="`, decoding to `hi`) for
the C4 witness. -/
def evB64 : InboundEvent :=
  { method := [71, 69, 84], path := [47], query := [], headers := [],
    body := [97, 71, 107, 61], bodyEncoded := true }

/-- The request built from `evB64`. -/
def reqB64 : StandardRequest :=
  { method := [71, 69, 84], url := { path := [47] }, headers := [], host := [],
    body := [104, 105], contentLength := 2 }

/-- Witness for C4. -/
theorem encoded_body_decode_or_abort_witness :
    reqB64.body = [104, 105] ∧ reqB64.contentLength = [104, 105].length :=
  ((encoded_body_decode_or_abort evB64 rfl).1 [104, 105] (by decide)).1 reqB64 (by decide)

/-- C7: every captured header entry is emitted in the envelope as a single
string equal to its values joined by a comma (byte 44) in captured order. -/
theorem headers_comma_joined (res : CapturedResponse) (k : List Nat)
    (vv : List (List Nat)) (h : (k, vv) ∈ res.headers) :
    (k, List.intercalate [44] vv) ∈ (encodeResponse res).headers := by
  have := List.mem_map_of_mem (fun kv => (kv.1, List.intercalate [44] kv.2)) h
  simpa [encodeResponse] using this

/-- A captured response whose one header carries the two values
`text/html` and `charset=utf-8`, for the C7 witness. -/
def resMultiHeader : CapturedResponse :=
  { statusCode := 200, status := [],
    headers := [([67, 111, 110, 116, 101, 110, 116, 45, 84, 121, 112, 101],
                 [[116, 101, 120, 116, 47, 104, 116, 109, 108],
                  [99, 104, 97, 114, 115, 101, 116, 61, 117, 116, 102, 45, 56]])],
    body := [] }

/-- Witness for C7: the two values are joined as `text/html,charset=utf-8`. -/
theorem headers_comma_joined_witness :
    ([67, 111, 110, 116, 101, 110, 116, 45, 84, 121, 112, 101],
     [116, 101, 120, 116, 47, 104, 116, 109, 108, 44,
      99, 104, 97, 114, 115, 101, 116, 61, 117, 116, 102, 45, 56]) ∈
    (encodeResponse resMultiHeader).headers := by
  have := headers_comma_joined resMultiHeader
    [67, 111, 110, 116, 101, 110, 116, 45, 84, 121, 112, 101]
    [[116, 101, 120, 116, 47, 104, 116, 109, 108],
     [99, 104, 97, 114, 115, 101, 116, 61, 117, 116, 102, 45, 56]]
    (by decide)
  simpa using this

/-- C10: the constructor `Handler` fails (Go: panics, modelled as
`Except.error`) exactly on a nil handler; on a non-nil handler it returns
the translation function `lambdaRun h` — the wrapped handler is applied
only inside `lambdaRun`, so construction never invokes it, and the nil
check is the only failure. -/
theorem handler_constructor_nil_check :
    (∀ hf, Handler (some hf) = Except.ok (lambdaRun hf)) ∧
    Handler none = Except.error panicMessage ∧
    ∀ h, (Handler h).toOption.isSome = h.isSome := by
  refine ⟨fun hf => rfl, rfl, fun h => ?_⟩
  cases h <;> rfl

/-- C5 counterexample: the claim quantifies over every path on which
reconstruction succeeds, but a `?` inside the path makes `url.Parse` cut
the query there: with path `/a?x` and query map `b = 2` the parse succeeds
and the raw query becomes `x?b=2`, whose single raw pair `x?b = 2` is not
the map entry `b = 2`. -/
theorem query_pairs_exact_cex :
    buildURL [47, 97, 63, 120] [([98], [50])] =
      some { path := [47, 97], rawPath := [], forceQuery := false, rawQuery := [120, 63, 98, 61, 50],
             fragment := [], rawFragment := [] } ∧
    ¬ queryPairs [120, 63, 98, 61, 50] = [([98], [50])] := by decide

/-- C5 (amended): for every path that is also correctly pre-escaped (no raw
`?` or `#`), every query map with correctly pre-escaped keys (no raw `&`,
`=`, `#`) and values (no raw `&`, `#`) on which URL reconstruction
succeeds, the raw query splits into exactly one `name=value` pair per map
entry and no others (stated for an arbitrary iteration order of the map). -/
theorem query_pairs_exact (path : List Nat) (query : List (List Nat × List Nat)) (u : GoURL)
    (hpath : ∀ b ∈ path, ¬ b = 63 ∧ ¬ b = 35)
    (hkeys : ∀ kv ∈ query, ∀ b ∈ kv.1, ¬ b = 38 ∧ ¬ b = 61 ∧ ¬ b = 35)
    (hvals : ∀ kv ∈ query, ∀ b ∈ kv.2, ¬ b = 38 ∧ ¬ b = 35)
    (hu : buildURL path query = some u) :
    queryPairs u.rawQuery = query := by
  by_cases hq : query = []
  · subst hq
    have h63 : ∀ b ∈ path, ¬ b = 63 := fun b hb => (hpath b hb).1
    have h35 : ∀ b ∈ path, ¬ b = 35 := fun b hb => (hpath b hb).2
    have hbuild : urlParse path = some u := by
      unfold buildURL at hu
      simpa using hu
    rw [urlParse_rawQuery_empty path u h63 h35 hbuild]
    rfl
  · rw [buildURL_rawQuery path query u hq hpath
      (fun kv hkv => ⟨hkeys kv hkv, hvals kv hkv⟩) hu]
    exact queryPairs_joinSep query (fun kv hkv =>
      ⟨fun b hb => ⟨(hkeys kv hkv b hb).1, (hkeys kv hkv b hb).2.1⟩,
       fun b hb => (hvals kv hkv b hb).1⟩)

/-- Witness for the amended C5 at path `/foo` and map `a = 1`, `b = 2`. -/
theorem query_pairs_exact_witness :
    queryPairs [97, 61, 49, 38, 98, 61, 50] = [([97], [49]), ([98], [50])] :=
  query_pairs_exact [47, 102, 111, 111] [([97], [49]), ([98], [50])]
    { path := [47, 102, 111, 111], rawPath := [], forceQuery := false,
      rawQuery := [97, 61, 49, 38, 98, 61, 50], fragment := [], rawFragment := [] }
    (by decide) (by decide) (by decide) (by decide)

/-- C6 counterexample: with an empty query map the path string is parsed as
the entire URL, so a `?` inside the event path yields a non-empty raw query
and a path component different from the event's path. -/
theorem empty_query_passthrough_cex :
    buildURL [47, 97, 63, 98] [] =
      some { path := [47, 97], rawPath := [], forceQuery := false, rawQuery := [98],
             fragment := [], rawFragment := [] } ∧
    ¬ ([98] : List Nat) = [] ∧ ¬ ([47, 97] : List Nat) = [47, 97, 63, 98] := by decide

/-- C6 (amended): for an event path beginning with a single `/` that
contains no `%`, `?`, `#` or control bytes, an empty query map makes
`buildURL` parse the path string alone, and the resulting URL has an empty
raw query, no appended `?` (no force-query flag), and the path component
equal to the event's path unchanged. -/
theorem empty_query_passthrough (path : List Nat) (t : List Nat)
    (h0 : path = 47 :: t) (h1 : ¬ path.take 2 = [47, 47])
    (h2 : ∀ b ∈ path, ¬ b = 37 ∧ ¬ b = 63 ∧ ¬ b = 35 ∧ isCtlByte b = false) :
    buildURL path [] = urlParse path ∧
    urlParse path =
      some { path := path, rawPath := if path = escape EncMode.path path then [] else path,
             forceQuery := false, rawQuery := [], fragment := [], rawFragment := [] } :=
  ⟨by simp [buildURL], urlParse_plain_path path t h0 h1 h2⟩

/-- Witness for the amended C6 at path `/foo`. -/
theorem empty_query_passthrough_witness :
    buildURL [47, 102, 111, 111] [] = urlParse [47, 102, 111, 111] ∧
    urlParse [47, 102, 111, 111] =
      some { path := [47, 102, 111, 111],
             rawPath := if [47, 102, 111, 111] =
               escape EncMode.path [47, 102, 111, 111] then [] else [47, 102, 111, 111],
             forceQuery := false, rawQuery := [], fragment := [], rawFragment := [] } :=
  empty_query_passthrough [47, 102, 111, 111] [102, 111, 111] rfl (by decide) (by decide)

/-- C8 counterexample: a query value with malformed percent-escaping
(`%zz`, bytes `37 122 122`) does not make the fast-path translation fail:
`url.Parse` stores the query part verbatim, the handler runs, and an
envelope is produced. -/
theorem malformed_query_escape_cex :
    unescape EncMode.queryComponent [37, 122, 122] = none ∧
    lambdaRun (fun _ => { statusCode := 200, status := [], headers := [], body := [72, 105] })
      { method := [71, 69, 84], path := [47, 112], query := [([97], [37, 122, 122])],
        headers := [], body := [], bodyEncoded := false } =
      some { statusCode := 200, status := [], headers := [], body := [72, 105],
             bodyEncoded := false } := by decide

/-- C8 (amended): in the conservative strategy (alb.go) a malformed
percent-escape in any query value aborts the translation with the decode
error before the handler is invoked: no envelope is produced, whatever the
handler.  The fast path (part_000) routes the assembled string through
`url.Parse`, which rejects control bytes and malformed path escaping but
stores the query substring verbatim, so such values do not fail there. -/
theorem malformed_query_escape_conservative (ev : InboundEvent)
    (h : ∃ kv ∈ ev.query, unescape EncMode.queryComponent kv.2 = none) :
    ∀ hf, lambdaRunConservative hf ev = none := by
  intro hf
  have hne : ev.query.isEmpty = false := by
    rcases h with ⟨kv, hkv, -⟩
    cases hq : ev.query with
    | nil =>
      rw [hq] at hkv
      cases hkv
    | cons a l => simp [hq]
  have hurl : conservativeURL ev.path ev.query = none := by
    unfold conservativeURL
    rw [hne]
    simp only [Bool.false_eq_true, if_false]
    rw [decodeQueryVals_none ev.query h]
  show (buildRequestWith conservativeURL ev).map _ = none
  unfold buildRequestWith
  rw [hurl]
  rfl

/-- Witness for the amended C8 at query map `a = %zz`. -/
theorem malformed_query_escape_conservative_witness :
    lambdaRunConservative (fun _ => { statusCode := 200, status := [], headers := [], body := [] })
      { method := [71, 69, 84], path := [47, 112], query := [([97], [37, 122, 122])],
        headers := [], body := [], bodyEncoded := false } = none :=
  malformed_query_escape_conservative
    { method := [71, 69, 84], path := [47, 112], query := [([97], [37, 122, 122])],
      headers := [], body := [], bodyEncoded := false }
    (by decide) _

/-- C9 counterexample: both strategies can succeed yet produce different
paths.  On the correctly escaped path `/a%20b` the conservative strategy
keeps `Path` as the raw event path while the fast path parses it, decoding
the escape to `/a b`. -/
theorem strategies_agree_cex :
    conservativeURL [47, 97, 37, 50, 48, 98] [([97], [49])] =
      some { path := [47, 97, 37, 50, 48, 98], rawPath := [], forceQuery := false,
             rawQuery := [97, 61, 49], fragment := [], rawFragment := [] } ∧
    buildURL [47, 97, 37, 50, 48, 98] [([97], [49])] =
      some { path := [47, 97, 32, 98], rawPath := [], forceQuery := false,
             rawQuery := [97, 61, 49], fragment := [], rawFragment := [] } ∧
    ¬ ([47, 97, 37, 50, 48, 98] : List Nat) = [47, 97, 32, 98] := by decide

/-- C9 (amended): for every path that begins with a single `/` and contains
no percent-escapes, `?`, `#` or control bytes, and every query map with
distinct keys of unreserved bytes and correctly percent-escaped values,
the conservative strategy (alb.go: unescape then re-encode through
`url.Values.Encode`) and the fast path (part_000 `buildURL`) both succeed
and produce URLs with the same path and the same multiset of decoded
`name=value` query pairs. -/
theorem strategies_agree (path : List Nat) (t : List Nat)
    (query : List (List Nat × List Nat))
    (h0 : path = 47 :: t) (h1 : ¬ path.take 2 = [47, 47])
    (h2 : ∀ b ∈ path, ¬ b = 37 ∧ ¬ b = 63 ∧ ¬ b = 35 ∧ isCtlByte b = false)
    (hkeys : ∀ kv ∈ query, ∀ b ∈ kv.1, unreservedByte b = true)
    (hvals : ∀ kv ∈ query, validEscapedValue kv.2 = true)
    (hnodup : (query.map Prod.fst).Nodup) :
    (conservativeURL path query).isSome = true ∧
    (buildURL path query).isSome = true ∧
    Option.map GoURL.path (conservativeURL path query) =
      Option.map GoURL.path (buildURL path query) ∧
    Option.map (fun l => Multiset.ofList l)
        ((conservativeURL path query).bind (fun u => decodedQueryPairs u.rawQuery)) =
      Option.map (fun l => Multiset.ofList l)
        ((buildURL path query).bind (fun u => decodedQueryPairs u.rawQuery)) := by
  by_cases hq : query = []
  · subst hq
    have hc : conservativeURL path [] = some { path := path } := rfl
    have hb2 : buildURL path [] = urlParse path := by simp [buildURL]
    rw [hc, hb2, urlParse_plain_path path t h0 h1 h2]
    exact ⟨rfl, rfl, rfl, rfl⟩
  · obtain ⟨decoded, hdec, hf, hcons⟩ := conservativeURL_wellformed path query hq hvals hnodup
    have hfast := buildURL_wellformed path t query h0 h1 h2 hq hkeys hvals
    have hdkeys : ∀ dkv ∈ decoded, ∀ b ∈ dkv.1, unreservedByte b = true := by
      intro dkv hdkv b hb
      obtain ⟨kv, hkv, hk, -⟩ := forall2_exists_left hf dkv hdkv
      exact hkeys kv hkv b (hk ▸ hb)
    have hdlt : ∀ dkv ∈ decoded, ∀ x ∈ dkv.2, x < 256 := by
      intro dkv hdkv x hx
      obtain ⟨kv, hkv, -, -, hlt⟩ := forall2_exists_left hf dkv hdkv
      exact hlt x hx
    rw [hcons, hfast]
    refine ⟨rfl, rfl, rfl, ?_⟩
    show Option.map _ (decodedQueryPairs (encodeValues decoded)) =
      Option.map _ (decodedQueryPairs (joinSep 38 (query.map (fun kv => kv.1 ++ 61 :: kv.2))))
    rw [decodedQueryPairs_encodeValues decoded hdkeys hdlt,
      decodedQueryPairs_fast query decoded hkeys hvals hf]
    show some (Multiset.ofList (sortByKey decoded)) = some (Multiset.ofList decoded)
    rw [Multiset.coe_eq_coe.2 (sortByKey_perm decoded)]

/-- Witness for the amended C9 at path `/p` and query map `a = %20`. -/
theorem strategies_agree_witness :
    (conservativeURL [47, 112] [([97], [37, 50, 48])]).isSome = true ∧
    (buildURL [47, 112] [([97], [37, 50, 48])]).isSome = true ∧
    Option.map GoURL.path (conservativeURL [47, 112] [([97], [37, 50, 48])]) =
      Option.map GoURL.path (buildURL [47, 112] [([97], [37, 50, 48])]) ∧
    Option.map (fun l => Multiset.ofList l)
        ((conservativeURL [47, 112] [([97], [37, 50, 48])]).bind
          (fun u => decodedQueryPairs u.rawQuery)) =
      Option.map (fun l => Multiset.ofList l)
        ((buildURL [47, 112] [([97], [37, 50, 48])]).bind
          (fun u => decodedQueryPairs u.rawQuery)) :=
  strategies_agree [47, 112] [112] [([97], [37, 50, 48])] rfl (by decide) (by decide)
    (by decide) (by decide) (by decide)

end Alb
